import Mathlib

/-!
Formal model of the backtesting engine in `src/backtest.py` of the
`backgrid` repository.

Price series, signal series and equity curves are modelled as `List ℚ`
(Python floats are modelled by exact rationals; the square roots appearing
in the Sharpe-ratio computation live in `ℝ`).  A pandas `NaN` entry is
modelled by `Option.none`, so a pandas float series that may contain `NaN`
becomes a `List (Option ℚ)`; element-wise arithmetic propagates `none`
exactly as pandas propagates `NaN`, `cumprod` skips `none` entries exactly
as pandas `cumprod` skips `NaN` with its default `skipna=True`, and
`fillna` replaces `none` entries.  Functions that raise `ValueError` in
Python are modelled with `Except`.
-/

namespace Backgrid

/-- Successive fractional changes of a list, given the previous element:
`retList prev [y, z, ...] = [y/prev - 1, z/y - 1, ...]`.  This is the
tail of pandas `Series.pct_change` (every entry past the first). -/
def retList : ℚ → List ℚ → List ℚ
  | _, [] => []
  | prev, y :: ys => (y / prev - 1) :: retList y ys

/-- Model of pandas `Series.pct_change()`: the first entry is `NaN`
(`none`), entry `i ≥ 1` is `x[i]/x[i-1] - 1`. -/
def pct_change : List ℚ → List (Option ℚ)
  | [] => []
  | x :: xs => none :: (retList x xs).map some

/-- Model of pandas `Series.shift(1)`: the first entry becomes `NaN`
(`none`), every other entry is the previous value; the length is kept. -/
def shift1 (s : List ℚ) : List (Option ℚ) :=
  match s with
  | [] => []
  | _ :: _ => none :: s.dropLast.map some

/-- Element-wise product with `NaN` propagation: `none` times anything is
`none`, as for pandas `NaN`. -/
def omul (a b : Option ℚ) : Option ℚ :=
  match a, b with
  | some x, some y => some (x * y)
  | _, _ => none

/-- Model of pandas `Series.cumprod()` with its default `skipna=True`:
a `none` entry stays `none` and the running product (starting from `acc`)
skips it. -/
def cumprodSkip : ℚ → List (Option ℚ) → List (Option ℚ)
  | _, [] => []
  | acc, none :: xs => none :: cumprodSkip acc xs
  | acc, some x :: xs => some (acc * x) :: cumprodSkip (acc * x) xs

/-- Model of `calculate_returns` (src/backtest.py, lines 85-117):
daily returns by `pct_change`, signals shifted by one step, element-wise
product, `(1 + strategy_returns).cumprod()`, scaling by the initial
capital, and `fillna(initial_capital)`. -/
def calculate_returns (prices : List ℚ) (signals : List ℚ)
    (initial_capital : ℚ) : List ℚ :=
  let daily_returns := pct_change prices
  let strategy_returns := List.zipWith omul (shift1 signals) daily_returns
  let cumulative_returns :=
    cumprodSkip 1 (strategy_returns.map (Option.map (fun x => 1 + x)))
  let equity_curve :=
    cumulative_returns.map (Option.map (fun x => initial_capital * x))
  equity_curve.map (fun o => o.getD initial_capital)

/-- Model of pandas `Series.rolling(window=w).mean()` at index `i`:
`NaN` (`none`) while fewer than `w` observations are available, otherwise
the mean of the window of the last `w` values ending at `i`. -/
def rollingMean (w : ℕ) (p : List ℚ) (i : ℕ) : Option ℚ :=
  if i + 1 < w then none
  else some ((((p.take (i + 1)).drop (i + 1 - w)).sum) / (w : ℚ))

/-- Comparison of two possibly-`NaN` values, as pandas `>` on float
series: any comparison involving `NaN` is `False`. -/
def gtOpt (a b : Option ℚ) : Bool :=
  match a, b with
  | some x, some y => decide (y < x)
  | _, _ => false

/-- Signal computation of `calculate_ma_crossover_signals` after
validation (src/backtest.py, lines 74-82): a series of zeros, set to `1`
wherever the fast rolling mean strictly exceeds the slow rolling mean. -/
def signalsCore (p : List ℚ) (fast slow : ℕ) : List ℚ :=
  (List.range p.length).map
    (fun i => if gtOpt (rollingMean fast p i) (rollingMean slow p i) then 1 else 0)

/-- Model of `calculate_ma_crossover_signals` (src/backtest.py, lines
43-82), validation checks in source order; a raised `ValueError` is an
`Except.error` carrying the message. -/
def calculate_ma_crossover_signals (df : List ℚ) (fast_period slow_period : ℤ) :
    Except String (List ℚ) :=
  if fast_period ≥ slow_period then
    .error ("Fast period must be less than slow period")
  else if fast_period < 2 ∨ slow_period < 2 then
    .error ("MA periods must be at least 2")
  else if (df.length : ℤ) < slow_period then
    .error ("Insufficient data")
  else
    .ok (signalsCore df fast_period.toNat slow_period.toNat)

/-- Mean of a list of rationals, as pandas `Series.mean()`. -/
def meanQ (l : List ℚ) : ℚ := l.sum / (l.length : ℚ)

/-- Sample variance (`ddof = 1`, the pandas default for `Series.std()`):
sum of squared deviations from the mean, divided by `n - 1`. -/
def varQ (l : List ℚ) : ℚ :=
  ((l.map (fun x => (x - meanQ l) ^ 2)).sum) / ((l.length : ℚ) - 1)

/-- Model of pandas `Series.std()` (with `ddof = 1`): the square root of
the sample variance, as a real number. -/
noncomputable def stdR (l : List ℚ) : ℝ := Real.sqrt ((varQ l : ℚ) : ℝ)

open Classical in
/-- Model of `calculate_sharpe_ratio` (src/backtest.py, lines 120-155):
percentage changes of the equity curve with the undefined first entry
dropped, a zero result on fewer than two observations, excess returns by
subtracting the per-period risk-free rate, a zero result on zero standard
deviation, otherwise mean over standard deviation, annualized by
`sqrt(periods_per_year)`. -/
noncomputable def calculate_sharpe_ratio (equity_curve : List ℚ)
    (risk_free_rate : ℚ) (periods_per_year : ℕ) : ℝ :=
  let returns := (pct_change equity_curve).filterMap id
  if returns.length < 2 then 0
  else
    let daily_rf_rate := risk_free_rate / (periods_per_year : ℚ)
    let excess_returns := returns.map (fun x => x - daily_rf_rate)
    if stdR excess_returns = 0 then 0
    else ((meanQ excess_returns : ℝ) / stdR excess_returns) *
      Real.sqrt (periods_per_year : ℝ)

/-- Tail of pandas `Series.expanding().max()` given the running maximum of
the part of the series already consumed. -/
def runningMaxAux : ℚ → List ℚ → List ℚ
  | _, [] => []
  | m, y :: ys => (max m y) :: runningMaxAux (max m y) ys

/-- Model of pandas `Series.expanding().max()`: the running maximum of
the series up to and including each entry. -/
def runningMax : List ℚ → List ℚ
  | [] => []
  | x :: xs => x :: runningMaxAux x xs

/-- Model of `calculate_max_drawdown` (src/backtest.py, lines 158-180):
zero on fewer than two points, otherwise the minimum over the series of
`(value - running_max) / running_max`. -/
def calculate_max_drawdown (equity_curve : List ℚ) : ℚ :=
  if equity_curve.length < 2 then 0
  else
    let running_max := runningMax equity_curve
    let drawdown := List.zipWith (fun v m => (v - m) / m) equity_curve running_max
    match drawdown with
    | [] => 0
    | d :: ds => ds.foldl min d

/-- Model of `calculate_total_return` (src/backtest.py, lines 183-204):
zero on fewer than two points or a zero first value, otherwise
`(last - first) / first`. -/
def calculate_total_return (equity_curve : List ℚ) : ℚ :=
  if equity_curve.length < 2 then 0
  else
    let initial_value := equity_curve.getD 0 0
    let final_value := (equity_curve.getLast?).getD 0
    if initial_value = 0 then 0
    else (final_value - initial_value) / initial_value

/-- Rounding to four decimal places on rationals, for the rounded scalar
statistics assembled by `run_backtest`. -/
def round4Q (x : ℚ) : ℚ := ((round (x * 10000) : ℤ) : ℚ) / 10000

/-- Rounding to four decimal places on reals. -/
noncomputable def round4R (x : ℝ) : ℝ := ((round (x * 10000) : ℤ) : ℝ) / 10000

/-- Error taxonomy of the engine: an unknown strategy name, or invalid
strategy parameters / insufficient data (both `ValueError` in the
source, distinguished by their messages). -/
inductive BtError where
  | unknownStrategy (msg : String)
  | parameterError (msg : String)
  deriving DecidableEq, Repr

/-- Deterministic fields of the result dictionary built by
`run_backtest`: the generated job identifier, wall-clock runtime and
creation timestamp are nondeterministic environment outputs and are not
modelled. -/
structure RunResult where
  status : String
  sharpe : ℝ
  max_drawdown : ℚ
  total_return : ℚ
  equity_curve : List ℚ

/-- Model of `run_backtest` (src/backtest.py, lines 207-265): strategy
dispatch by name, parameter extraction with defaults `fast = 10` and
`slow = 30`, signal generation, equity simulation, the three statistics
(rounded to four decimal places) and the `"completed"` status. -/
noncomputable def run_backtest (df : List ℚ) (strategy : String)
    (params : List (String × ℤ)) (initial_capital : ℚ) :
    Except BtError RunResult :=
  if strategy ≠ "ma_crossover" then
    .error (.unknownStrategy ("Unknown strategy: " ++ strategy))
  else
    let fast := (params.lookup ("fast")).getD 10
    let slow := (params.lookup ("slow")).getD 30
    match calculate_ma_crossover_signals df fast slow with
    | .error m => .error (.parameterError m)
    | .ok signals =>
      let equity_curve := calculate_returns df signals initial_capital
      .ok { status := "completed"
            sharpe := round4R (calculate_sharpe_ratio equity_curve 0 252)
            max_drawdown := round4Q (calculate_max_drawdown equity_curve)
            total_return := round4Q (calculate_total_return equity_curve)
            equity_curve := equity_curve }

/-! ### List access helpers -/

lemma getD_map_of_lt {α β : Type _} (f : α → β) (l : List α) {j : ℕ}
    (hj : j < l.length) (d : β) (d' : α) :
    (l.map f).getD j d = f (l.getD j d') := by
  rw [List.getD_eq_getElem _ _ (by simpa using hj), List.getElem_map,
    List.getD_eq_getElem _ _ hj]

lemma getD_zipWith_of_lt (f : ℚ → ℚ → ℚ) (a b : List ℚ) {j : ℕ}
    (hj : j < (List.zipWith f a b).length) (d da db : ℚ) :
    (List.zipWith f a b).getD j d = f (a.getD j da) (b.getD j db) := by
  have hja : j < a.length := lt_of_lt_of_le hj (by simp [List.length_zipWith])
  have hjb : j < b.length := lt_of_lt_of_le hj (by simp [List.length_zipWith])
  rw [List.getD_eq_getElem _ _ hj, List.getElem_zipWith,
    List.getD_eq_getElem _ _ hja, List.getD_eq_getElem _ _ hjb]

lemma getD_dropLast_of_lt (l : List ℚ) {j : ℕ} (hj : j < l.length - 1) (d : ℚ) :
    l.dropLast.getD j d = l.getD j d := by
  have hj' : j < l.dropLast.length := by simpa using hj
  rw [List.getD_eq_getElem _ _ hj', List.getElem_dropLast,
    List.getD_eq_getElem _ _ (lt_of_lt_of_le hj (Nat.sub_le _ _))]

lemma sum_eq_sum_range_getD (l : List ℚ) :
    l.sum = ∑ j ∈ Finset.range l.length, l.getD j 0 := by
  induction l with
  | nil => simp
  | cons x xs ih =>
    rw [List.sum_cons, List.length_cons, Finset.sum_range_succ', ih]
    simp
    rw [add_comm]

/-! ### Characterization of the position simulator -/

lemma retList_length : ∀ (prev : ℚ) (l : List ℚ), (retList prev l).length = l.length
  | _, [] => rfl
  | prev, y :: ys => by simp [retList, retList_length y ys]

lemma retList_getD : ∀ (l : List ℚ) (prev : ℚ) (j : ℕ), j < l.length →
    (retList prev l).getD j 0 = l.getD j 0 / (prev :: l).getD j 0 - 1
  | [], _, j, hj => by simp at hj
  | y :: ys, prev, 0, _ => by simp [retList]
  | y :: ys, prev, j + 1, hj => by
    simpa [retList, List.getD_cons_succ] using
      retList_getD ys y j (by simpa using hj)

lemma zipWith_omul_map_some : ∀ (a b : List ℚ),
    List.zipWith omul (a.map some) (b.map some) =
      (List.zipWith (fun x y => x * y) a b).map some
  | [], _ => by simp
  | _ :: _, [] => by simp
  | x :: xs, y :: ys => by
    simpa [omul] using zipWith_omul_map_some xs ys

lemma cumprodSkip_length : ∀ (acc : ℚ) (l : List (Option ℚ)),
    (cumprodSkip acc l).length = l.length
  | _, [] => rfl
  | acc, none :: xs => by simp [cumprodSkip, cumprodSkip_length acc xs]
  | acc, some x :: xs => by simp [cumprodSkip, cumprodSkip_length (acc * x) xs]

lemma cumprodSkip_map_some_getD : ∀ (acc : ℚ) (l : List ℚ) (i : ℕ), i < l.length →
    (cumprodSkip acc (l.map some)).getD i none =
      some (acc * ∏ j ∈ Finset.range (i + 1), l.getD j 0)
  | _, [], i, hi => by simp at hi
  | acc, x :: xs, 0, _ => by simp [cumprodSkip]
  | acc, x :: xs, i + 1, hi => by
    have ih := cumprodSkip_map_some_getD (acc * x) xs i (by simpa using hi)
    rw [List.map_cons, cumprodSkip, List.getD_cons_succ, ih]
    congr 1
    conv_rhs => rw [Finset.prod_range_succ']
    simp [List.getD_cons_succ, List.getD_cons_zero]
    ring

lemma length_calculate_returns (p s : List ℚ) (c : ℚ) :
    (calculate_returns p s c).length = min s.length p.length := by
  cases p with
  | nil => simp [calculate_returns, pct_change, cumprodSkip]
  | cons p₀ pr =>
    cases s with
    | nil => simp [calculate_returns, pct_change, shift1, cumprodSkip]
    | cons s₀ sr =>
      simp [calculate_returns, pct_change, shift1, cumprodSkip_length,
        List.length_zipWith, retList_length]
      omega

lemma calculate_returns_cons (p₀ : ℚ) (pr : List ℚ) (s₀ : ℚ) (sr : List ℚ) (c : ℚ) :
    calculate_returns (p₀ :: pr) (s₀ :: sr) c =
      c :: ((cumprodSkip 1
          (((List.zipWith (fun x y => x * y) ((s₀ :: sr).dropLast) (retList p₀ pr)).map
            (fun x => 1 + x)).map some)).map
        (fun o => (o.map (fun x => c * x)).getD c)) := by
  simp only [calculate_returns, pct_change, shift1, List.zipWith_cons_cons,
    List.map_cons, List.map_map]
  rw [show omul none none = none from rfl, zipWith_omul_map_some]
  simp [cumprodSkip, List.map_map, Function.comp_def]

lemma calculate_returns_getD_zero (p s : List ℚ) (c : ℚ)
    (hp : p ≠ []) (hs : s ≠ []) :
    (calculate_returns p s c).getD 0 0 = c := by
  cases p with
  | nil => exact absurd rfl hp
  | cons p₀ pr =>
    cases s with
    | nil => exact absurd rfl hs
    | cons s₀ sr => rw [calculate_returns_cons]; rfl

lemma calculate_returns_getD (p s : List ℚ) (c : ℚ) (h : s.length = p.length)
    (i : ℕ) (h1 : 1 ≤ i) (hi : i < p.length) :
    (calculate_returns p s c).getD i 0 =
      c * ∏ k ∈ Finset.Icc 1 i,
        (1 + s.getD (k - 1) 0 * (p.getD k 0 / p.getD (k - 1) 0 - 1)) := by
  cases p with
  | nil => simp at hi
  | cons p₀ pr =>
    cases s with
    | nil => simp at h
    | cons s₀ sr =>
      obtain ⟨j, rfl⟩ : ∃ j, i = j + 1 := ⟨i - 1, by omega⟩
      set L : List ℚ :=
        (List.zipWith (fun x y => x * y) ((s₀ :: sr).dropLast) (retList p₀ pr)).map
          (fun x => 1 + x) with hL
      have h' : sr.length = pr.length := by simpa using h
      have hLlen : L.length = pr.length := by
        simp [hL, List.length_zipWith, retList_length]
        omega
      have hjL : j < L.length := by
        rw [hLlen]; simpa using hi
      rw [calculate_returns_cons, List.getD_cons_succ,
        getD_map_of_lt _ _ (by rw [cumprodSkip_length, List.length_map]; exact hjL) 0 none,
        cumprodSkip_map_some_getD 1 L j hjL]
      rw [Option.map_some', Option.getD_some, one_mul]
      congr 1
      rw [← Nat.Ico_succ_right, Finset.prod_Ico_eq_prod_range]
      have hrange : j + 1 + 1 - 1 = j + 1 := by omega
      rw [hrange]
      refine Finset.prod_congr rfl ?_
      intro k hk
      have hk' : k < j + 1 := Finset.mem_range.mp hk
      have hkL : k < L.length := lt_of_lt_of_le hk' (by omega)
      rw [hL, getD_map_of_lt _ _ (by simpa [hL] using hkL) 0 0,
        getD_zipWith_of_lt _ _ _ (by simpa [hL] using hkL) 0 0 0,
        getD_dropLast_of_lt _ (by simp; omega) 0,
        retList_getD pr p₀ k (by simpa [hLlen] using hkL)]
      have h1k : 1 + k - 1 = k := by omega
      have h2k : 1 + k = k + 1 := by omega
      simp [h1k, h2k, List.getD_cons_succ]

/-! ### Signal generator lemmas -/

lemma signalsCore_length (p : List ℚ) (fast slow : ℕ) :
    (signalsCore p fast slow).length = p.length := by
  simp [signalsCore]

lemma calculate_ma_crossover_signals_ok_iff (p : List ℚ) (f s : ℤ) (sig : List ℚ) :
    calculate_ma_crossover_signals p f s = .ok sig ↔
      ¬ f ≥ s ∧ ¬ (f < 2 ∨ s < 2) ∧ ¬ ((p.length : ℤ) < s) ∧
        sig = signalsCore p f.toNat s.toNat := by
  unfold calculate_ma_crossover_signals
  split_ifs with h1 h2 h3 <;> simp_all <;> tauto

lemma calculate_ma_crossover_signals_error_iff (p : List ℚ) (f s : ℤ) :
    (∃ m, calculate_ma_crossover_signals p f s = .error m) ↔
      s ≤ f ∨ f < 2 ∨ s < 2 ∨ (p.length : ℤ) < s := by
  unfold calculate_ma_crossover_signals
  split_ifs with h1 h2 h3 <;> simp_all <;> tauto

/-! ### Claim theorems: C1, C6, C9 -/

/-- C1: for every price series and signal series of equal length `n` and
every initial capital `c`, the equity curve returned by the position
simulator satisfies `equity[0] = c`, and for every `1 ≤ i < n`,
`equity[i] = c * Π_{k=1..i} (1 + signal[k-1] * r[k])` with
`r[k] = price[k]/price[k-1] - 1` (the strategy return at step 0 is 0). -/
theorem equity_curve_closed_form (p s : List ℚ) (c : ℚ) (n : ℕ)
    (hp : p.length = n) (hs : s.length = n) :
    (0 < n → (calculate_returns p s c).getD 0 0 = c) ∧
    (∀ i, 1 ≤ i → i < n →
      (calculate_returns p s c).getD i 0 =
        c * ∏ k ∈ Finset.Icc 1 i,
          (1 + s.getD (k - 1) 0 * (p.getD k 0 / p.getD (k - 1) 0 - 1))) := by
  constructor
  · intro hn
    exact calculate_returns_getD_zero p s c
      (List.ne_nil_of_length_pos (hp ▸ hn)) (List.ne_nil_of_length_pos (hs ▸ hn))
  · intro i h1 hi
    exact calculate_returns_getD p s c (hs.trans hp.symm) i h1 (by omega)

/-- Witness for C1 at `prices = [1, 2]`, `signals = [1, 1]`, capital 100. -/
theorem equity_curve_closed_form_witness :
    (calculate_returns [1, 2] [1, 1] 100).getD 0 0 = 100 ∧
    (calculate_returns [1, 2] [1, 1] 100).getD 1 0 =
      100 * ∏ k ∈ Finset.Icc 1 1,
        (1 + ([1, 1] : List ℚ).getD (k - 1) 0 *
          (([1, 2] : List ℚ).getD k 0 / ([1, 2] : List ℚ).getD (k - 1) 0 - 1)) :=
  ⟨(equity_curve_closed_form [1, 2] [1, 1] 100 2 rfl rfl).1 (by norm_num),
   (equity_curve_closed_form [1, 2] [1, 1] 100 2 rfl rfl).2 1 le_rfl (by norm_num)⟩

/-- C6: the signal generator fails if and only if `fast ≥ slow`, or one of
the periods is below the minimum window size of 2, or the price series is
shorter than the slow period; otherwise it succeeds with the computed
signal series (the validation precedes the signal computation). -/
theorem signal_generator_validation (p : List ℚ) (f s : ℤ) :
    ((∃ m, calculate_ma_crossover_signals p f s = .error m) ↔
      s ≤ f ∨ f < 2 ∨ s < 2 ∨ (p.length : ℤ) < s) ∧
    (¬ (s ≤ f ∨ f < 2 ∨ s < 2 ∨ (p.length : ℤ) < s) →
      calculate_ma_crossover_signals p f s = .ok (signalsCore p f.toNat s.toNat)) := by
  refine ⟨calculate_ma_crossover_signals_error_iff p f s, fun h => ?_⟩
  rw [calculate_ma_crossover_signals_ok_iff]
  push_neg at h
  refine ⟨by omega, by omega, by omega, rfl⟩

/-- Witness for C6: `fast = 30, slow = 10` is rejected, and a valid
configuration is accepted. -/
theorem signal_generator_validation_witness :
    (∃ m, calculate_ma_crossover_signals [1] 30 10 = .error m) ∧
    calculate_ma_crossover_signals [1, 2, 3] 2 3 =
      .ok (signalsCore [1, 2, 3] (2 : ℤ).toNat (3 : ℤ).toNat) :=
  ⟨(signal_generator_validation [1] 30 10).1.mpr (Or.inl (by norm_num)),
   (signal_generator_validation [1, 2, 3] 2 3).2 (by norm_num)⟩

/-- C9: on every accepted input, the signal series and the equity curve
have exactly the length of the input price series. -/
theorem output_lengths_match_input (p : List ℚ) (f s : ℤ) (sig : List ℚ) (c : ℚ)
    (h : calculate_ma_crossover_signals p f s = .ok sig) :
    sig.length = p.length ∧ (calculate_returns p sig c).length = p.length := by
  obtain ⟨-, -, -, rfl⟩ := (calculate_ma_crossover_signals_ok_iff p f s sig).mp h
  refine ⟨signalsCore_length .., ?_⟩
  rw [length_calculate_returns, signalsCore_length, min_self]

/-- Witness for C9 at a three-point series and periods 2 and 3. -/
theorem output_lengths_match_input_witness :
    (signalsCore [1, 2, 3] (2 : ℤ).toNat (3 : ℤ).toNat).length = 3 ∧
    (calculate_returns [1, 2, 3]
      (signalsCore [1, 2, 3] (2 : ℤ).toNat (3 : ℤ).toNat) 5).length = 3 :=
  output_lengths_match_input [1, 2, 3] 2 3 _ 5
    ((calculate_ma_crossover_signals_ok_iff [1, 2, 3] 2 3 _).mpr
      ⟨by norm_num, by norm_num, by norm_num, rfl⟩)

/-! ### Rolling-mean window lemmas -/

lemma rollingMean_eq_sum (w : ℕ) (p : List ℚ) (i : ℕ) (hi : i < p.length)
    (hw : w ≤ i + 1) :
    rollingMean w p i =
      some ((∑ k ∈ Finset.Ico (i + 1 - w) (i + 1), p.getD k 0) / (w : ℚ)) := by
  unfold rollingMean
  rw [if_neg (by omega)]
  congr 1
  have hqlen : ((p.take (i + 1)).drop (i + 1 - w)).length = w := by
    simp [List.length_drop, List.length_take]
    omega
  have hqget : ∀ j, j < w →
      ((p.take (i + 1)).drop (i + 1 - w)).getD j 0 = p.getD (i + 1 - w + j) 0 := by
    intro j hj
    have hj' : j < ((p.take (i + 1)).drop (i + 1 - w)).length := by omega
    have hjp : i + 1 - w + j < p.length := by omega
    rw [List.getD_eq_getElem _ _ hj', List.getElem_drop,
      List.getElem_take, List.getD_eq_getElem _ _ hjp]
  rw [sum_eq_sum_range_getD, hqlen, Finset.sum_Ico_eq_sum_range]
  have hw' : i + 1 - (i + 1 - w) = w := by omega
  rw [hw']
  exact congrArg (fun z => z / (w : ℚ))
    (Finset.sum_congr rfl (fun j hj => hqget j (Finset.mem_range.mp hj)))

lemma rollingMean_none (w : ℕ) (p : List ℚ) (i : ℕ) (hw : i + 1 < w) :
    rollingMean w p i = none := by
  unfold rollingMean
  rw [if_pos hw]

lemma signalsCore_getD (p : List ℚ) (fast slow : ℕ) {i : ℕ} (hi : i < p.length) :
    (signalsCore p fast slow).getD i 0 =
      if gtOpt (rollingMean fast p i) (rollingMean slow p i) then 1 else 0 := by
  unfold signalsCore
  have hr : (List.range p.length).getD i 0 = i := by
    rw [List.getD_eq_getElem _ _ (by simpa using hi)]
    exact List.getElem_range ..
  rw [getD_map_of_lt _ _ (by simpa using hi) 0 0, hr]

/-! ### Prefix congruence (no-look-ahead infrastructure) -/

lemma take_eq_of_agree (p₁ p₂ : List ℚ) (k : ℕ) (hlen : p₁.length = p₂.length)
    (hagree : ∀ i, i ≤ k → p₁.getD i 0 = p₂.getD i 0) {m : ℕ} (hm : m ≤ k + 1) :
    p₁.take m = p₂.take m := by
  apply List.ext_getElem (by simp [hlen])
  intro n h₁ h₂
  have hn₁ : n < p₁.length := by
    have := h₁; simp [List.length_take] at this; omega
  have hn₂ : n < p₂.length := hlen ▸ hn₁
  have hnk : n ≤ k := by
    have := h₁; simp [List.length_take] at this; omega
  rw [List.getElem_take, List.getElem_take, ← List.getD_eq_getElem p₁ 0 hn₁,
    ← List.getD_eq_getElem p₂ 0 hn₂]
  exact hagree n hnk

lemma rollingMean_take_congr (w : ℕ) (p₁ p₂ : List ℚ) (i : ℕ)
    (h : p₁.take (i + 1) = p₂.take (i + 1)) :
    rollingMean w p₁ i = rollingMean w p₂ i := by
  unfold rollingMean
  rw [h]

lemma signalsCore_getD_congr (p₁ p₂ : List ℚ) (fast slow : ℕ) (k : ℕ)
    (hlen : p₁.length = p₂.length)
    (hagree : ∀ i, i ≤ k → p₁.getD i 0 = p₂.getD i 0)
    {i : ℕ} (hik : i ≤ k) :
    (signalsCore p₁ fast slow).getD i 0 = (signalsCore p₂ fast slow).getD i 0 := by
  by_cases hi : i < p₁.length
  · have htake := take_eq_of_agree p₁ p₂ k hlen hagree (m := i + 1) (by omega)
    rw [signalsCore_getD p₁ fast slow hi, signalsCore_getD p₂ fast slow (hlen ▸ hi),
      rollingMean_take_congr fast p₁ p₂ i htake,
      rollingMean_take_congr slow p₁ p₂ i htake]
  · rw [List.getD_eq_default, List.getD_eq_default] <;>
      simp [signalsCore_length, ← hlen] <;> omega

/-! ### Claim theorems: C2, C3 -/

/-- C2: on every accepted input, the signal at index `i` is 1 exactly when
the slow moving average is defined (enough look-back) and the fast moving
average strictly exceeds it, and 0 otherwise (ties and insufficient
look-back give 0); in particular every signal value lies in `{0, 1}`. -/
theorem signal_values_ma_crossover (p : List ℚ) (f s : ℤ) (sig : List ℚ)
    (h : calculate_ma_crossover_signals p f s = .ok sig) :
    ∀ i, i < p.length →
      (sig.getD i 0 =
        if s.toNat ≤ i + 1 ∧
            (∑ k ∈ Finset.Ico (i + 1 - s.toNat) (i + 1), p.getD k 0) / (s.toNat : ℚ) <
            (∑ k ∈ Finset.Ico (i + 1 - f.toNat) (i + 1), p.getD k 0) / (f.toNat : ℚ)
          then 1 else 0) ∧
      (sig.getD i 0 = 0 ∨ sig.getD i 0 = 1) := by
  obtain ⟨hfs, hmin, hlen, rfl⟩ := (calculate_ma_crossover_signals_ok_iff p f s sig).mp h
  intro i hi
  have hmain : (signalsCore p f.toNat s.toNat).getD i 0 =
      if s.toNat ≤ i + 1 ∧
          (∑ k ∈ Finset.Ico (i + 1 - s.toNat) (i + 1), p.getD k 0) / (s.toNat : ℚ) <
          (∑ k ∈ Finset.Ico (i + 1 - f.toNat) (i + 1), p.getD k 0) / (f.toNat : ℚ)
        then 1 else 0 := by
    by_cases hS : s.toNat ≤ i + 1
    · have hF : f.toNat ≤ i + 1 := by omega
      rw [signalsCore_getD p _ _ hi, rollingMean_eq_sum f.toNat p i hi hF,
        rollingMean_eq_sum s.toNat p i hi hS]
      simp only [gtOpt, decide_eq_true_eq]
      simp [hS]
    · rw [signalsCore_getD p _ _ hi, rollingMean_none s.toNat p i (by omega)]
      cases rollingMean f.toNat p i <;> simp [gtOpt, hS]
  exact ⟨hmain, by rw [hmain]; split_ifs <;> simp⟩

/-- Witness for C2 at `prices = [1, 1, 2]`, `fast = 2`, `slow = 3`,
index 2. -/
theorem signal_values_ma_crossover_witness :
    ((signalsCore [1, 1, 2] (2 : ℤ).toNat (3 : ℤ).toNat).getD 2 0 =
      if (3 : ℤ).toNat ≤ 2 + 1 ∧
          (∑ k ∈ Finset.Ico (2 + 1 - (3 : ℤ).toNat) (2 + 1),
            ([1, 1, 2] : List ℚ).getD k 0) / ((3 : ℤ).toNat : ℚ) <
          (∑ k ∈ Finset.Ico (2 + 1 - (2 : ℤ).toNat) (2 + 1),
            ([1, 1, 2] : List ℚ).getD k 0) / ((2 : ℤ).toNat : ℚ)
        then 1 else 0) ∧
    ((signalsCore [1, 1, 2] (2 : ℤ).toNat (3 : ℤ).toNat).getD 2 0 = 0 ∨
      (signalsCore [1, 1, 2] (2 : ℤ).toNat (3 : ℤ).toNat).getD 2 0 = 1) :=
  signal_values_ma_crossover [1, 1, 2] 2 3 _
    ((calculate_ma_crossover_signals_ok_iff [1, 1, 2] 2 3 _).mpr
      ⟨by norm_num, by norm_num, by norm_num, rfl⟩) 2 (by norm_num)

/-- C3: two price series that agree on indices `0..k` (with the signals
derived from each by the signal generator and the same initial capital)
produce equity curves that agree on every index `j ≤ k`, whatever the
prices past `k` are. -/
theorem no_look_ahead_two_run (p₁ p₂ : List ℚ) (f s : ℤ) (c : ℚ) (k : ℕ)
    (sig₁ sig₂ : List ℚ)
    (hlen : p₁.length = p₂.length)
    (h₁ : calculate_ma_crossover_signals p₁ f s = .ok sig₁)
    (h₂ : calculate_ma_crossover_signals p₂ f s = .ok sig₂)
    (hagree : ∀ i, i ≤ k → p₁.getD i 0 = p₂.getD i 0) :
    ∀ j, j ≤ k →
      (calculate_returns p₁ sig₁ c).getD j 0 =
        (calculate_returns p₂ sig₂ c).getD j 0 := by
  obtain ⟨-, -, -, rfl⟩ := (calculate_ma_crossover_signals_ok_iff p₁ f s sig₁).mp h₁
  obtain ⟨-, -, -, rfl⟩ := (calculate_ma_crossover_signals_ok_iff p₂ f s sig₂).mp h₂
  intro j hj
  by_cases hjn : j < p₁.length
  · rcases Nat.eq_zero_or_pos j with rfl | hj1
    · rw [calculate_returns_getD_zero _ _ _ (List.ne_nil_of_length_pos hjn)
          (List.ne_nil_of_length_pos (by rw [signalsCore_length]; omega)),
        calculate_returns_getD_zero _ _ _ (List.ne_nil_of_length_pos (by omega))
          (List.ne_nil_of_length_pos (by rw [signalsCore_length]; omega))]
    · rw [calculate_returns_getD _ _ _ (signalsCore_length ..) j hj1 hjn,
        calculate_returns_getD _ _ _ (signalsCore_length ..) j hj1 (by omega)]
      congr 1
      apply Finset.prod_congr rfl
      intro m hm
      obtain ⟨hm1, hmj⟩ := Finset.mem_Icc.mp hm
      rw [signalsCore_getD_congr p₁ p₂ f.toNat s.toNat k hlen hagree (by omega),
        hagree m (by omega), hagree (m - 1) (by omega)]
  · rw [List.getD_eq_default, List.getD_eq_default]
    · rw [length_calculate_returns, signalsCore_length, min_self]; omega
    · rw [length_calculate_returns, signalsCore_length, min_self]; omega

/-- Witness for C3: the series `[1, 2, 3, 4]` and `[1, 2, 3, 100]` agree
up to index 2 and give the same equity value at index 2. -/
theorem no_look_ahead_two_run_witness :
    (calculate_returns [1, 2, 3, 4]
        (signalsCore [1, 2, 3, 4] (2 : ℤ).toNat (3 : ℤ).toNat) 1).getD 2 0 =
      (calculate_returns [1, 2, 3, 100]
        (signalsCore [1, 2, 3, 100] (2 : ℤ).toNat (3 : ℤ).toNat) 1).getD 2 0 :=
  no_look_ahead_two_run [1, 2, 3, 4] [1, 2, 3, 100] 2 3 1 2 _ _ rfl
    ((calculate_ma_crossover_signals_ok_iff [1, 2, 3, 4] 2 3 _).mpr
      ⟨by norm_num, by norm_num, by norm_num, rfl⟩)
    ((calculate_ma_crossover_signals_ok_iff [1, 2, 3, 100] 2 3 _).mpr
      ⟨by norm_num, by norm_num, by norm_num, rfl⟩)
    (by intro i hi; interval_cases i <;> rfl) 2 le_rfl

/-! ### Running maximum and list minimum lemmas -/

lemma runningMaxAux_length : ∀ (m : ℚ) (l : List ℚ),
    (runningMaxAux m l).length = l.length
  | _, [] => rfl
  | m, y :: ys => by simp [runningMaxAux, runningMaxAux_length (max m y) ys]

lemma runningMax_length : ∀ (e : List ℚ), (runningMax e).length = e.length
  | [] => rfl
  | x :: xs => by simp [runningMax, runningMaxAux_length x xs]

lemma runningMaxAux_spec : ∀ (l : List ℚ) (m : ℚ) (j : ℕ), j < l.length →
    ((runningMaxAux m l).getD j 0 = m ∨
      ∃ k, k ≤ j ∧ (runningMaxAux m l).getD j 0 = l.getD k 0) ∧
    m ≤ (runningMaxAux m l).getD j 0 ∧
    (∀ k, k ≤ j → l.getD k 0 ≤ (runningMaxAux m l).getD j 0)
  | [], _, j, hj => by simp at hj
  | y :: ys, m, 0, _ => by
    refine ⟨?_, ?_, ?_⟩
    · rcases max_choice m y with h | h
      · exact Or.inl (by simp [runningMaxAux, h])
      · exact Or.inr ⟨0, le_rfl, by simp [runningMaxAux, h]⟩
    · simp [runningMaxAux]
    · intro k hk
      interval_cases k
      simp [runningMaxAux]
  | y :: ys, m, j + 1, hj => by
    obtain ⟨hid, hini, hbound⟩ :=
      runningMaxAux_spec ys (max m y) j (by simpa using hj)
    refine ⟨?_, ?_, ?_⟩
    · rcases hid with h | ⟨k, hk, hkv⟩
      · rcases max_choice m y with h' | h'
        · exact Or.inl (by
            simp only [runningMaxAux, List.getD_cons_succ]
            rw [h, h'])
        · exact Or.inr ⟨0, by omega, by
            simp only [runningMaxAux, List.getD_cons_succ, List.getD_cons_zero]
            rw [h, h']⟩
      · exact Or.inr ⟨k + 1, by omega,
          by simpa [runningMaxAux, List.getD_cons_succ] using hkv⟩
    · calc m ≤ max m y := le_max_left m y
        _ ≤ _ := by simpa [runningMaxAux, List.getD_cons_succ] using hini
    · intro k hk
      cases k with
      | zero =>
        calc (y :: ys).getD 0 0 = y := by simp
          _ ≤ max m y := le_max_right m y
          _ ≤ _ := by simpa [runningMaxAux, List.getD_cons_succ] using hini
      | succ k' =>
        simpa [runningMaxAux, List.getD_cons_succ] using hbound k' (by omega)

lemma runningMax_spec (e : List ℚ) {i : ℕ} (hi : i < e.length) :
    (∃ k, k ≤ i ∧ (runningMax e).getD i 0 = e.getD k 0) ∧
    (∀ k, k ≤ i → e.getD k 0 ≤ (runningMax e).getD i 0) := by
  cases e with
  | nil => simp at hi
  | cons x xs =>
    cases i with
    | zero =>
      refine ⟨⟨0, le_rfl, by simp [runningMax]⟩, ?_⟩
      intro k hk
      interval_cases k
      simp [runningMax]
    | succ j =>
      obtain ⟨hid, hini, hbound⟩ :=
        runningMaxAux_spec xs x j (by simpa using hi)
      constructor
      · rcases hid with h | ⟨k, hk, hkv⟩
        · exact ⟨0, by omega, by
            simp only [runningMax, List.getD_cons_succ, List.getD_cons_zero]
            exact h⟩
        · exact ⟨k + 1, by omega,
            by simpa [runningMax, List.getD_cons_succ] using hkv⟩
      · intro k hk
        cases k with
        | zero => simpa [runningMax, List.getD_cons_succ] using hini
        | succ k' =>
          simpa [runningMax, List.getD_cons_succ] using hbound k' (by omega)

lemma runningMax_getD_eq_sup (e : List ℚ) {i : ℕ} (hi : i < e.length) :
    (runningMax e).getD i 0 =
      (Finset.range (i + 1)).sup' ⟨0, Finset.mem_range.mpr (Nat.succ_pos i)⟩
        (fun k => e.getD k 0) := by
  obtain ⟨⟨k, hk, hkv⟩, hbound⟩ := runningMax_spec e hi
  apply le_antisymm
  · rw [hkv]
    exact Finset.le_sup' (fun k => e.getD k 0)
      (Finset.mem_range.mpr (Nat.lt_succ_of_le hk))
  · exact Finset.sup'_le _ _ (fun b hb => hbound b (by
      have := Finset.mem_range.mp hb; omega))

lemma foldl_min_le_init : ∀ (l : List ℚ) (a : ℚ), l.foldl min a ≤ a
  | [], _ => le_rfl
  | y :: ys, a =>
    le_trans (foldl_min_le_init ys (min a y)) (min_le_left a y)

lemma foldl_min_le_mem : ∀ (l : List ℚ) (a x : ℚ), x ∈ l → l.foldl min a ≤ x
  | y :: ys, a, x, hx => by
    rcases List.mem_cons.mp hx with rfl | hx'
    · exact le_trans (foldl_min_le_init ys (min a x)) (min_le_right a x)
    · exact foldl_min_le_mem ys (min a y) x hx'

lemma foldl_min_mem : ∀ (l : List ℚ) (a : ℚ), l.foldl min a ∈ a :: l
  | [], a => List.mem_singleton.mpr rfl
  | y :: ys, a => by
    have h := foldl_min_mem ys (min a y)
    rcases List.mem_cons.mp h with h' | h'
    · rcases min_choice a y with hm | hm
      · exact List.mem_cons.mpr (Or.inl (h'.trans hm))
      · exact List.mem_cons.mpr (Or.inr (List.mem_cons.mpr (Or.inl (h'.trans hm))))
    · exact List.mem_cons.mpr (Or.inr (List.mem_cons.mpr (Or.inr h')))

lemma getD_mem_of_lt (l : List ℚ) {j : ℕ} (hj : j < l.length) :
    l.getD j 0 ∈ l := by
  rw [List.getD_eq_getElem _ _ hj]
  exact List.getElem_mem ..

lemma dd_getD (e : List ℚ) {j : ℕ} (hj : j < e.length) :
    (List.zipWith (fun v m => (v - m) / m) e (runningMax e)).getD j 0 =
      (e.getD j 0 - (runningMax e).getD j 0) / (runningMax e).getD j 0 :=
  getD_zipWith_of_lt _ _ _
    (by rw [List.length_zipWith, runningMax_length, min_self]; exact hj) 0 0 0

lemma calculate_max_drawdown_eq_foldl (e : List ℚ) (h2 : 2 ≤ e.length)
    (d : ℚ) (ds : List ℚ)
    (hdd : List.zipWith (fun v m => (v - m) / m) e (runningMax e) = d :: ds) :
    calculate_max_drawdown e = ds.foldl min d := by
  unfold calculate_max_drawdown
  rw [if_neg (by omega)]
  simp only [hdd]

/-! ### Claim theorem: C5 -/

/-- C5: the maximum drawdown is 0 on curves with fewer than two points and
otherwise equals the minimum over all indices of
`(value - running_max) / running_max`, where `running_max` is the maximum
of the curve up to and including that index; and it is always ≤ 0. -/
theorem max_drawdown_is_min_drawdown (e : List ℚ) :
    calculate_max_drawdown e ≤ 0 ∧
    (e.length < 2 → calculate_max_drawdown e = 0) ∧
    (2 ≤ e.length →
      (∃ i, i < e.length ∧
        calculate_max_drawdown e =
          (e.getD i 0 -
              (Finset.range (i + 1)).sup' ⟨0, Finset.mem_range.mpr (Nat.succ_pos i)⟩
                (fun k => e.getD k 0)) /
            (Finset.range (i + 1)).sup' ⟨0, Finset.mem_range.mpr (Nat.succ_pos i)⟩
              (fun k => e.getD k 0)) ∧
      (∀ j, j < e.length →
        calculate_max_drawdown e ≤
          (e.getD j 0 -
              (Finset.range (j + 1)).sup' ⟨0, Finset.mem_range.mpr (Nat.succ_pos j)⟩
                (fun k => e.getD k 0)) /
            (Finset.range (j + 1)).sup' ⟨0, Finset.mem_range.mpr (Nat.succ_pos j)⟩
              (fun k => e.getD k 0))) := by
  by_cases h2 : e.length < 2
  · have h0 : calculate_max_drawdown e = 0 := by
      unfold calculate_max_drawdown
      rw [if_pos h2]
    exact ⟨le_of_eq h0, fun _ => h0, fun h => absurd h (by omega)⟩
  · push_neg at h2
    set dd := List.zipWith (fun v m => (v - m) / m) e (runningMax e) with hdddef
    have hddlen : dd.length = e.length := by
      rw [hdddef, List.length_zipWith, runningMax_length, min_self]
    have hddne : dd ≠ [] := by
      intro hnil
      rw [hnil] at hddlen
      simp at hddlen
      omega
    obtain ⟨d, ds, hdd⟩ := List.exists_cons_of_ne_nil hddne
    have hres : calculate_max_drawdown e = ds.foldl min d :=
      calculate_max_drawdown_eq_foldl e h2 d ds (hdddef ▸ hdd)
    have hmem : calculate_max_drawdown e ∈ dd := by
      rw [hres, hdd]
      exact foldl_min_mem ds d
    have hle : ∀ y ∈ dd, calculate_max_drawdown e ≤ y := by
      intro y hy
      rw [hdd] at hy
      rcases List.mem_cons.mp hy with rfl | hy'
      · rw [hres]
        exact foldl_min_le_init ds y
      · rw [hres]
        exact foldl_min_le_mem ds d y hy'
    have h00 : dd.getD 0 0 = 0 := by
      rw [hdddef, dd_getD e (by omega)]
      have hrm0 : (runningMax e).getD 0 0 = e.getD 0 0 := by
        cases e with
        | nil => simp at h2
        | cons x xs => simp [runningMax]
      rw [hrm0, sub_self, zero_div]
    have hle0 : calculate_max_drawdown e ≤ 0 := by
      have h := hle (dd.getD 0 0) (getD_mem_of_lt dd (by omega))
      rwa [h00] at h
    refine ⟨hle0, fun h => absurd h (by omega), fun _ => ⟨?_, ?_⟩⟩
    · obtain ⟨i, hilt, hiv⟩ := List.getElem_of_mem hmem
      have hie : i < e.length := by omega
      refine ⟨i, hie, ?_⟩
      have hv : dd.getD i 0 = calculate_max_drawdown e := by
        rw [List.getD_eq_getElem _ _ (by omega)]
        exact hiv
      rw [← hv, hdddef, dd_getD e hie, runningMax_getD_eq_sup e hie]
    · intro j hj
      have h := hle (dd.getD j 0) (getD_mem_of_lt dd (by omega))
      rwa [hdddef, dd_getD e hj, runningMax_getD_eq_sup e hj] at h

/-- Witness for C5: the curve `[2, 1]` has non-positive maximum drawdown,
and a single-point curve yields 0. -/
theorem max_drawdown_witness :
    calculate_max_drawdown [2, 1] ≤ 0 ∧ calculate_max_drawdown [5] = 0 :=
  ⟨(max_drawdown_is_min_drawdown [2, 1]).1,
   (max_drawdown_is_min_drawdown [5]).2.1 (by norm_num)⟩

/-! ### Sharpe-ratio infrastructure -/

lemma filterMap_id_map_some (l : List ℚ) : (l.map some).filterMap id = l := by
  induction l with
  | nil => simp
  | cons x xs ih => simp [List.filterMap_cons, ih]

lemma pct_change_filterMap (x : ℚ) (xs : List ℚ) :
    (pct_change (x :: xs)).filterMap id = retList x xs := by
  simp [pct_change, List.filterMap_cons, filterMap_id_map_some]

lemma returns_length (e : List ℚ) :
    ((pct_change e).filterMap id).length = e.length - 1 := by
  cases e with
  | nil => simp [pct_change]
  | cons x xs => simp [pct_change_filterMap, retList_length]

lemma excess_getD (x : ℚ) (xs : List ℚ) (c : ℚ) {j : ℕ} (hj : j < xs.length) :
    ((retList x xs).map (fun t => t - c)).getD j 0 =
      (x :: xs).getD (j + 1) 0 / (x :: xs).getD j 0 - 1 - c := by
  rw [getD_map_of_lt _ _ (by rw [retList_length]; exact hj) 0 0,
    retList_getD xs x j hj]
  simp [List.getD_cons_succ]

lemma varQ_nonneg (l : List ℚ) (h : 1 ≤ l.length) : 0 ≤ varQ l := by
  unfold varQ
  apply div_nonneg
  · apply List.sum_nonneg
    intro x hx
    obtain ⟨y, -, rfl⟩ := List.mem_map.mp hx
    positivity
  · have : (1 : ℚ) ≤ (l.length : ℚ) := by exact_mod_cast h
    linarith

lemma sum_map_sub_getD (l : List ℚ) (g : ℚ → ℚ) :
    (l.map g).sum = ∑ j ∈ Finset.range l.length, g (l.getD j 0) := by
  rw [sum_eq_sum_range_getD, List.length_map]
  exact Finset.sum_congr rfl
    (fun j hj => getD_map_of_lt g l (Finset.mem_range.mp hj) 0 0)

lemma mean_excess (x : ℚ) (xs : List ℚ) (c : ℚ) :
    meanQ ((retList x xs).map (fun t => t - c)) =
      (∑ k ∈ Finset.Icc 1 xs.length,
        ((x :: xs).getD k 0 / (x :: xs).getD (k - 1) 0 - 1 - c)) /
        ((xs.length : ℚ)) := by
  unfold meanQ
  rw [List.length_map, retList_length]
  congr 1
  rw [sum_eq_sum_range_getD, List.length_map, retList_length,
    ← Nat.Ico_succ_right, Finset.sum_Ico_eq_sum_range]
  have h1 : xs.length + 1 - 1 = xs.length := by omega
  rw [h1]
  refine Finset.sum_congr rfl ?_
  intro j hj
  have hj' : j < xs.length := Finset.mem_range.mp hj
  rw [excess_getD x xs c hj']
  have h2 : 1 + j = j + 1 := by omega
  have h3 : j + 1 - 1 = j := by omega
  rw [h2, h3]

lemma var_excess (x : ℚ) (xs : List ℚ) (c m : ℚ)
    (hm : meanQ ((retList x xs).map (fun t => t - c)) = m) :
    varQ ((retList x xs).map (fun t => t - c)) =
      (∑ k ∈ Finset.Icc 1 xs.length,
        (((x :: xs).getD k 0 / (x :: xs).getD (k - 1) 0 - 1 - c) - m) ^ 2) /
        ((xs.length : ℚ) - 1) := by
  unfold varQ
  rw [hm, List.length_map, retList_length]
  congr 1
  rw [sum_map_sub_getD, List.length_map, retList_length,
    ← Nat.Ico_succ_right, Finset.sum_Ico_eq_sum_range]
  have h1 : xs.length + 1 - 1 = xs.length := by omega
  rw [h1]
  refine Finset.sum_congr rfl ?_
  intro j hj
  have hj' : j < xs.length := Finset.mem_range.mp hj
  rw [excess_getD x xs c hj']
  have h2 : 1 + j = j + 1 := by omega
  have h3 : j + 1 - 1 = j := by omega
  rw [h2, h3]

open Classical in
lemma calculate_sharpe_ratio_cons (x : ℚ) (xs : List ℚ) (rf : ℚ) (ppy : ℕ)
    (h2 : 2 ≤ xs.length) :
    calculate_sharpe_ratio (x :: xs) rf ppy =
      if stdR ((retList x xs).map (fun t => t - rf / (ppy : ℚ))) = 0 then 0
      else ((meanQ ((retList x xs).map (fun t => t - rf / (ppy : ℚ))) : ℝ) /
          stdR ((retList x xs).map (fun t => t - rf / (ppy : ℚ)))) *
        Real.sqrt (ppy : ℝ) := by
  simp only [calculate_sharpe_ratio]
  rw [pct_change_filterMap, if_neg (by rw [retList_length]; omega)]

/-! ### Claim theorem: C4 -/

/-- C4: the annualized risk-adjusted return is 0 when fewer than two
period-over-period return observations remain after dropping the undefined
first value; otherwise, with excess returns formed by subtracting the
per-period risk-free rate (annual rate over 252), it is 0 when the
excess-return standard deviation is exactly 0 and
`mean(excess)/stdev(excess)*sqrt(252)` otherwise (stated through the
sample mean `m` and sample variance `v` of the excess returns). -/
theorem sharpe_ratio_formula (e : List ℚ) (rf : ℚ) (m v : ℚ)
    (hm : m = (∑ k ∈ Finset.Icc 1 (e.length - 1),
        (e.getD k 0 / e.getD (k - 1) 0 - 1 - rf / 252)) / ((e.length : ℚ) - 1))
    (hv : v = (∑ k ∈ Finset.Icc 1 (e.length - 1),
        ((e.getD k 0 / e.getD (k - 1) 0 - 1 - rf / 252) - m) ^ 2) /
        ((e.length : ℚ) - 2)) :
    (e.length < 3 → calculate_sharpe_ratio e rf 252 = 0) ∧
    (3 ≤ e.length →
      (v = 0 → calculate_sharpe_ratio e rf 252 = 0) ∧
      (v ≠ 0 → calculate_sharpe_ratio e rf 252 =
        ((m : ℝ) / Real.sqrt ((v : ℚ) : ℝ)) * Real.sqrt 252)) := by
  constructor
  · intro h3
    simp only [calculate_sharpe_ratio]
    rw [if_pos (by rw [returns_length]; omega)]
  · intro h3
    cases e with
    | nil => simp at h3
    | cons x xs =>
      have hxs : 2 ≤ xs.length := by
        simp at h3
        omega
      simp only [List.length_cons, Nat.add_sub_cancel] at hm hv
      have hcast : ((252 : ℕ) : ℚ) = 252 := by norm_num
      have hmq : meanQ ((retList x xs).map (fun t => t - rf / 252)) = m := by
        rw [mean_excess x xs (rf / 252), hm]
        congr 1
        push_cast
        ring
      have hvq : varQ ((retList x xs).map (fun t => t - rf / 252)) = v := by
        rw [var_excess x xs (rf / 252) m hmq, hv]
        congr 1
        push_cast
        ring
      rw [calculate_sharpe_ratio_cons x xs rf 252 hxs, hcast]
      constructor
      · intro hv0
        rw [if_pos]
        unfold stdR
        rw [hvq, hv0]
        simp
      · intro hv0
        have hvpos : 0 < v := by
          have h0 : 0 ≤ v := hvq ▸ varQ_nonneg _ (by simp [retList_length]; omega)
          exact lt_of_le_of_ne h0 (Ne.symm hv0)
        have hstd : stdR ((retList x xs).map (fun t => t - rf / 252)) =
            Real.sqrt ((v : ℚ) : ℝ) := by
          unfold stdR
          rw [hvq]
        rw [if_neg, hstd, hmq]
        · norm_num
        · rw [hstd]
          exact Real.sqrt_ne_zero'.mpr (by exact_mod_cast hvpos)

/-- Witness for C4: a two-point curve returns 0 through the short-input
branch, and the curve `[1, 2, 4]` (constant returns) returns 0 through the
zero-standard-deviation branch. -/
theorem sharpe_ratio_formula_witness :
    calculate_sharpe_ratio [1, 2] 0 252 = 0 ∧
    calculate_sharpe_ratio [1, 2, 4] 0 252 = 0 := by
  constructor
  · exact (sharpe_ratio_formula [1, 2] 0 1 0
      (by
        simp only [List.length_cons, List.length_nil]
        rw [show Finset.Icc 1 (2 - 1) = {1} by decide]
        norm_num)
      (by
        simp only [List.length_cons, List.length_nil]
        rw [show Finset.Icc 1 (2 - 1) = {1} by decide]
        norm_num)).1 (by norm_num)
  · refine ((sharpe_ratio_formula [1, 2, 4] 0 1 0 ?_ ?_).2 (by norm_num)).1 rfl
    · simp only [List.length_cons, List.length_nil]
      rw [show Finset.Icc 1 (3 - 1) = {1, 2} by decide]
      norm_num
    · simp only [List.length_cons, List.length_nil]
      rw [show Finset.Icc 1 (3 - 1) = {1, 2} by decide]
      norm_num

/-! ### Degenerate (constant) curve lemmas -/

lemma retList_replicate (v : ℚ) : ∀ m : ℕ,
    retList v (List.replicate m v) = List.replicate m (v / v - 1)
  | 0 => rfl
  | m + 1 => by
    simp only [List.replicate, retList]
    rw [retList_replicate v m]

lemma meanQ_replicate (m : ℕ) (a : ℚ) (h : 1 ≤ m) :
    meanQ (List.replicate m a) = a := by
  unfold meanQ
  rw [List.sum_replicate, List.length_replicate, nsmul_eq_mul]
  have hm0 : 0 < m := by omega
  have hm : ((m : ℚ)) ≠ 0 := by exact_mod_cast hm0.ne'
  field_simp

lemma varQ_replicate (m : ℕ) (a : ℚ) (h : 1 ≤ m) :
    varQ (List.replicate m a) = 0 := by
  unfold varQ
  rw [meanQ_replicate m a h]
  simp [List.map_replicate, List.sum_replicate]

lemma runningMaxAux_replicate (v : ℚ) : ∀ m : ℕ,
    runningMaxAux v (List.replicate m v) = List.replicate m v
  | 0 => rfl
  | m + 1 => by
    simp only [List.replicate, runningMaxAux, max_self]
    rw [runningMaxAux_replicate v m]

lemma zipWith_self_replicate (f : ℚ → ℚ → ℚ) (v : ℚ) : ∀ m : ℕ,
    List.zipWith f (List.replicate m v) (List.replicate m v) =
      List.replicate m (f v v)
  | 0 => rfl
  | m + 1 => by
    simp only [List.replicate, List.zipWith_cons_cons]
    rw [zipWith_self_replicate f v m]

lemma foldl_min_zero_replicate : ∀ k : ℕ,
    (List.replicate k (0 : ℚ)).foldl min 0 = 0
  | 0 => rfl
  | k + 1 => by
    simp only [List.replicate, List.foldl_cons, min_self]
    exact foldl_min_zero_replicate k

lemma getLast?_replicate_pos (v : ℚ) : ∀ m : ℕ, 1 ≤ m →
    (List.replicate m v).getLast? = some v
  | 1, _ => rfl
  | m + 2, _ => by
    have h := getLast?_replicate_pos v (m + 1) (by omega)
    simp only [List.replicate]
    rw [List.getLast?_cons_cons]
    simpa [List.replicate] using h

/-! ### Claim theorem: C8 -/

/-- C8: the three statistic functions are total over every constant curve
(of which the empty curve, the single-point curve and every flat curve are
instances): each returns the well-defined numeric value 0 and no error
value is involved. -/
theorem statistics_total_on_degenerate (n : ℕ) (v : ℚ) :
    calculate_sharpe_ratio (List.replicate n v) 0 252 = 0 ∧
    calculate_max_drawdown (List.replicate n v) = 0 ∧
    calculate_total_return (List.replicate n v) = 0 := by
  refine ⟨?_, ?_, ?_⟩
  · by_cases h3 : n < 3
    · simp only [calculate_sharpe_ratio]
      rw [if_pos (by rw [returns_length, List.length_replicate]; omega)]
    · push_neg at h3
      obtain ⟨m, rfl⟩ : ∃ m, n = m + 1 := ⟨n - 1, by omega⟩
      rw [List.replicate_succ,
        calculate_sharpe_ratio_cons v (List.replicate m v) 0 252
          (by rw [List.length_replicate]; omega)]
      rw [if_pos]
      unfold stdR
      rw [retList_replicate, List.map_replicate,
        varQ_replicate m _ (by omega)]
      simp
  · by_cases h2 : n < 2
    · unfold calculate_max_drawdown
      rw [if_pos (by rw [List.length_replicate]; omega)]
    · push_neg at h2
      have hrm : runningMax (List.replicate n v) = List.replicate n v := by
        obtain ⟨m, rfl⟩ : ∃ m, n = m + 1 := ⟨n - 1, by omega⟩
        rw [List.replicate_succ]
        simp only [runningMax]
        rw [runningMaxAux_replicate]
      have hdd : List.zipWith (fun a b => (a - b) / b) (List.replicate n v)
          (runningMax (List.replicate n v)) = List.replicate n (0 : ℚ) := by
        rw [hrm, zipWith_self_replicate]
        rw [sub_self, zero_div]
      obtain ⟨m, rfl⟩ : ∃ m, n = m + 1 := ⟨n - 1, by omega⟩
      rw [calculate_max_drawdown_eq_foldl (List.replicate (m + 1) v)
        (by rw [List.length_replicate]; omega) 0 (List.replicate m 0)
        (by rw [hdd, List.replicate_succ])]
      exact foldl_min_zero_replicate m
  · by_cases h2 : n < 2
    · unfold calculate_total_return
      rw [if_pos (by rw [List.length_replicate]; omega)]
    · push_neg at h2
      unfold calculate_total_return
      rw [if_neg (by rw [List.length_replicate]; omega)]
      have h0 : (List.replicate n v).getD 0 0 = v := by
        obtain ⟨m, rfl⟩ : ∃ m, n = m + 1 := ⟨n - 1, by omega⟩
        rw [List.replicate_succ]
        simp
      by_cases hv : v = 0
      · rw [h0, if_pos hv]
      · rw [h0, if_neg hv, getLast?_replicate_pos v n (by omega)]
        simp [sub_self]

/-! ### Orchestrator lemmas -/

lemma run_backtest_unknown (df : List ℚ) (strategy : String)
    (params : List (String × ℤ)) (c : ℚ) (h : strategy ≠ "ma_crossover") :
    run_backtest df strategy params c =
      .error (.unknownStrategy ("Unknown strategy: " ++ strategy)) := by
  unfold run_backtest
  rw [if_pos h]

lemma run_backtest_ma (df : List ℚ) (params : List (String × ℤ)) (c : ℚ) :
    run_backtest df ("ma_crossover") params c =
      match calculate_ma_crossover_signals df ((params.lookup ("fast")).getD 10)
          ((params.lookup ("slow")).getD 30) with
      | .error m => .error (.parameterError m)
      | .ok signals =>
        .ok { status := "completed"
              sharpe := round4R
                (calculate_sharpe_ratio (calculate_returns df signals c) 0 252)
              max_drawdown := round4Q
                (calculate_max_drawdown (calculate_returns df signals c))
              total_return := round4Q
                (calculate_total_return (calculate_returns df signals c))
              equity_curve := calculate_returns df signals c } := by
  unfold run_backtest
  rw [if_neg (by simp)]

/-! ### Claim theorems: C7, C10 -/

/-- C7: `run_backtest` fails with an unknown-strategy error exactly when
the requested strategy name is not the registered `"ma_crossover"`; with
the registered name, valid periods and a sufficiently long series it
returns a result with status `"completed"` and an equity curve as long as
the input. -/
theorem run_backtest_strategy_dispatch (df : List ℚ) (strategy : String)
    (params : List (String × ℤ)) (c : ℚ) :
    ((∃ m, run_backtest df strategy params c = .error (.unknownStrategy m)) ↔
      strategy ≠ "ma_crossover") ∧
    (strategy = "ma_crossover" →
      ¬ ((params.lookup ("fast")).getD 10 ≥ (params.lookup ("slow")).getD 30) →
      ¬ ((params.lookup ("fast")).getD 10 < 2 ∨ (params.lookup ("slow")).getD 30 < 2) →
      ¬ ((df.length : ℤ) < (params.lookup ("slow")).getD 30) →
      ∃ r, run_backtest df strategy params c = .ok r ∧
        r.status = "completed" ∧ r.equity_curve.length = df.length) := by
  constructor
  · constructor
    · rintro ⟨m, hm⟩ heq
      subst heq
      rw [run_backtest_ma] at hm
      cases hcase : calculate_ma_crossover_signals df
          ((params.lookup ("fast")).getD 10) ((params.lookup ("slow")).getD 30) with
      | error msg => rw [hcase] at hm; simp at hm
      | ok sig => rw [hcase] at hm; simp at hm
    · intro h
      exact ⟨_, run_backtest_unknown df strategy params c h⟩
  · intro heq h1 h2 h3
    subst heq
    have hok : calculate_ma_crossover_signals df ((params.lookup ("fast")).getD 10)
        ((params.lookup ("slow")).getD 30) =
        .ok (signalsCore df ((params.lookup ("fast")).getD 10).toNat
          ((params.lookup ("slow")).getD 30).toNat) :=
      (calculate_ma_crossover_signals_ok_iff df _ _ _).mpr ⟨h1, h2, h3, rfl⟩
    rw [run_backtest_ma, hok]
    refine ⟨_, rfl, rfl, ?_⟩
    rw [length_calculate_returns, signalsCore_length, min_self]

/-- Witness for C7: a bogus strategy name is rejected with an
unknown-strategy error, and a valid call on a three-point series completes
with a three-point equity curve. -/
theorem run_backtest_strategy_dispatch_witness :
    (∃ m, run_backtest [1] "bogus" [] 1 = .error (.unknownStrategy m)) ∧
    (∃ r, run_backtest [1, 2, 3] "ma_crossover" [("fast", 2), ("slow", 3)] 7 =
        .ok r ∧ r.status = "completed" ∧ r.equity_curve.length = 3) := by
  constructor
  · exact (run_backtest_strategy_dispatch [1] "bogus" [] 1).1.mpr (by decide)
  · exact (run_backtest_strategy_dispatch [1, 2, 3] "ma_crossover"
      [("fast", 2), ("slow", 3)] 7).2 rfl (by decide) (by decide) (by decide)

/-- C10: when the params mapping lacks the key `"fast"` or `"slow"`,
`run_backtest` does not fail on the missing key but substitutes the
defaults `fast = 10` and `slow = 30`: every params mapping behaves exactly
like the explicit mapping of its looked-up-or-default values, and in
particular the empty mapping behaves exactly like
`{fast: 10, slow: 30}`. -/
theorem run_backtest_param_defaults (df : List ℚ)
    (params : List (String × ℤ)) (c : ℚ) :
    (run_backtest df ("ma_crossover") [] c =
      run_backtest df ("ma_crossover") [("fast", 10), ("slow", 30)] c) ∧
    (run_backtest df ("ma_crossover") params c =
      run_backtest df ("ma_crossover")
        [("fast", (params.lookup ("fast")).getD 10),
         ("slow", (params.lookup ("slow")).getD 30)] c) := by
  constructor
  · rw [run_backtest_ma, run_backtest_ma]
    simp [List.lookup]
  · rw [run_backtest_ma, run_backtest_ma]
    simp [List.lookup]

end Backgrid
